import Mathlib

/-!
# Verification of the blueprint room-detection core

Shallow embedding of the CORE pipeline of `python-vision-service/app.py`:
the line-extension heuristic (`extend_lines_for_open_plans`), the contour
segmenter (`find_rooms_from_contours`), the deduplicating ranker
(`filter_and_rank_rooms`), the text-room associator
(`associate_text_with_rooms`) and the result-formatting tail of
`detect_rooms`.

Modelling conventions:
* Outputs of the external collaborators (the contour primitive, the wall-line
  primitive, the OCR engine) are taken as abstract inputs: a `Contour` carries
  the values of `cv2.contourArea` and `cv2.boundingRect`, an `HEntry` is one
  row of the `cv2.findContours` hierarchy, a `TextRegion` is one OCR record,
  a `Seg` is one Hough line segment.
* Python machine numbers are embedded as exact integers (`ℤ`/`ℕ`) and exact
  rationals (`ℚ`); `x // y` is floor division, `int(q)` truncates toward zero,
  `round(q, 2)` rounds to two decimals.
* Drawing on the copied mask in `extend_lines_for_open_plans` is modelled by
  the list of `cv2.line` commands issued on the derived copy (the rasterizer
  itself is an external primitive); the input mask and line lists are plain
  immutable values, so the function is pure by construction, mirroring
  `enhanced = binary_image.copy()` in the source.
* The sibling walks over the hierarchy use fuel `hier.length`, which is
  sufficient for every well-formed (acyclic) hierarchy produced by
  `cv2.findContours`.
-/

/- The kernel evaluation of concrete pipeline runs needs the arithmetic of
`ℚ` to unfold. -/
attribute [local semireducible] Rat.mul Rat.inv Rat.add Rat.sub Rat.ofScientific

/-- One row of `hierarchy[0]` from `cv2.findContours`:
`[Next, Previous, First_Child, Parent]`, with `-1` meaning absent. -/
structure HEntry where
  nxt : ℤ
  prv : ℤ
  child : ℤ
  parent : ℤ
deriving DecidableEq

/-- One contour as seen by the segmenter: `cv2.contourArea` value and the
`cv2.boundingRect` rectangle `(x, y, w, h)`. -/
structure Contour where
  area : ℚ
  x : ℕ
  y : ℕ
  w : ℕ
  h : ℕ
deriving DecidableEq

/-- A room candidate / ranked room: the `room_data` dict built by
`find_rooms_from_contours`, with the OCR fields later attached by
`associate_text_with_rooms` (`detected_name`, `text_confidence`). -/
structure RoomData where
  x_min : ℤ
  y_min : ℤ
  x_max : ℤ
  y_max : ℤ
  confidence : ℚ
  area : ℤ
  is_hallway : Bool
  aspect : ℚ
  detected_name : Option String
  text_confidence : ℚ
deriving DecidableEq

/-- One OCR record from `detect_text_regions` (already normalized to the
0-1000 scale, with the stored centers). -/
structure TextRegion where
  text : String
  x_min : ℤ
  y_min : ℤ
  x_max : ℤ
  y_max : ℤ
  confidence : ℚ
  center_x : ℤ
  center_y : ℤ
deriving DecidableEq

/-- One formatted room of the final `detect_rooms` response. -/
structure RoomResult where
  rid : String
  x_min : ℤ
  y_min : ℤ
  x_max : ℤ
  y_max : ℤ
  name_hint : String
  detected_name : Option String
  text_confidence : ℚ
deriving DecidableEq

/-- Python `int(q)` on a rational: truncation toward zero. -/
def pyInt (q : ℚ) : ℤ := if 0 ≤ q then ⌊q⌋ else -⌊-q⌋

/-- Python `round(q, 2)`: round to two decimal places (at the exact-rational
abstraction of the float arithmetic). -/
def roundTo2 (q : ℚ) : ℚ := ((round (q * 100) : ℤ) : ℚ) / 100

/-- `int((v / dim) * 1000)`: renormalization of a pixel coordinate to the
0-1000 scale (exact-rational abstraction: floor of `v * 1000 / dim`). -/
def normCoord (v dim : ℕ) : ℕ := v * 1000 / dim

/-- `hierarchy[0][i]` lookup; out-of-range indices (only reachable on
malformed hierarchies) give the all-absent row. -/
def hGet (hier : List HEntry) (i : ℤ) : HEntry :=
  if h : 0 ≤ i ∧ i.toNat < hier.length then hier.get ⟨i.toNat, h.2⟩
  else ⟨-1, -1, -1, -1⟩

/-- `cv2.contourArea(contours[i])` lookup used by the child-area walk. -/
def cArea (contours : List Contour) (i : ℤ) : ℚ :=
  if h : 0 ≤ i ∧ i.toNat < contours.length then (contours.get ⟨i.toNat, h.2⟩).area
  else 0

/-- `while child_idx != -1: child_count += 1; child_idx = next-sibling`
(fuel-bounded sibling walk). -/
def countChain (hier : List HEntry) : ℕ → ℤ → ℕ
  | 0, _ => 0
  | fuel + 1, i => if i = -1 then 0 else 1 + countChain hier fuel (hGet hier i).nxt

/-- `while child_idx != -1 and child_idx < len(contours): child_total_area += area`
(fuel-bounded sibling walk summing child contour areas). -/
def sumChain (contours : List Contour) (hier : List HEntry) : ℕ → ℤ → ℚ
  | 0, _ => 0
  | fuel + 1, i =>
    if i = -1 ∨ ¬ i < (contours.length : ℤ) then 0
    else cArea contours i + sumChain contours hier fuel (hGet hier i).nxt

/-- `aspect_ratio = max(w, h) / min(w, h) if min(w, h) > 0 else 0`. -/
def mkAspect (w h : ℕ) : ℚ :=
  if 0 < min w h then ((max w h : ℕ) : ℚ) / ((min w h : ℕ) : ℚ) else 0

/-- The container-rejection test of `find_rooms_from_contours` for contour
`i` (the `should_skip` flag): only evaluated when the contour has children.
Disjunct 1: `child_count >= 3 and area > min_area * 5 and child_ratio > 0.4`;
disjunct 2: `area_ratio > 0.25`. -/
def shouldSkipParent (H W : ℕ) (minA : ℚ) (contours : List Contour)
    (hh : List HEntry) (i : ℕ) (c : Contour) : Prop :=
  let childCount := countChain hh hh.length (hGet hh (i : ℤ)).child
  let childTotal := sumChain contours hh hh.length (hGet hh (i : ℤ)).child
  let childShare := if 0 < c.area then childTotal / c.area else 0
  let imageArea : ℚ := ((H * W : ℕ) : ℚ)
  let areaShare := if 0 < imageArea then c.area / imageArea else 0
  (3 ≤ childCount ∧ c.area > minA * 5 ∧ childShare > 2/5) ∨ areaShare > 1/4

instance (H W : ℕ) (minA : ℚ) (contours : List Contour) (hh : List HEntry)
    (i : ℕ) (c : Contour) :
    Decidable (shouldSkipParent H W minA contours hh i c) := by
  unfold shouldSkipParent; infer_instance

/-- The confidence computation of `find_rooms_from_contours`:
`normalized_area = area / (image_height * image_width)`, then `0.4` for
implausibly large contours (`normalized_area > 0.25`), otherwise
`min(0.95, max(0.5, normalized_area * 50))`. -/
def segConfidence (H W : ℕ) (area : ℚ) : ℚ :=
  let normalizedArea : ℚ := area / ((H * W : ℕ) : ℚ)
  if normalizedArea > 1/4 then 2/5
  else min (19/20) (max (1/2) (normalizedArea * 50))

/-- The body of the `for i, contour in enumerate(contours)` loop of
`find_rooms_from_contours`: `none` when the contour is skipped (`continue`),
otherwise the `room_data` record appended to `rooms` or `hallways` (which of
the two is read back from the `is_hallway` field). -/
def processContour (H W : ℕ) (minA maxA : ℚ) (contours : List Contour)
    (hier : Option (List HEntry)) (i : ℕ) (c : Contour) : Option RoomData :=
  if c.area < minA ∨ c.area > maxA then none
  else
    let aspect := mkAspect c.w c.h
    let skipped : Bool :=
      match hier with
      | some hh =>
        decide ((hGet hh (i : ℤ)).child ≠ -1) &&
          decide (shouldSkipParent H W minA contours hh i c)
      | none => false
    if skipped then none
    else
      let isHallway : Bool := decide (aspect > 3 ∧ c.area > minA * 2)
      if isHallway = false ∧ aspect > 15 then none
      else
        some ⟨(normCoord c.x W : ℕ), (normCoord c.y H : ℕ),
              (normCoord (c.x + c.w) W : ℕ), (normCoord (c.y + c.h) H : ℕ),
              roundTo2 (segConfidence H W c.area), pyInt c.area, isHallway,
              roundTo2 aspect, none, 0⟩

/-- The enumerate loop of `find_rooms_from_contours`, building the `rooms`
and `hallways` lists (in index order, as the Python appends do). -/
def segLoop (H W : ℕ) (minA maxA : ℚ) (contours : List Contour)
    (hier : Option (List HEntry)) : ℕ → List Contour → List RoomData × List RoomData
  | _, [] => ([], [])
  | i, c :: rest =>
    let p := segLoop H W minA maxA contours hier (i + 1) rest
    match processContour H W minA maxA contours hier i c with
    | none => p
    | some rd => if rd.is_hallway then (p.1, rd :: p.2) else (rd :: p.1, p.2)

/-- `find_rooms_from_contours(binary_image, min_area=300, max_area=None)`:
the binary image enters only through its shape `H × W` and through the
contour/hierarchy output of the external `cv2.findContours` primitive; the
result is `rooms + hallways`. -/
def find_rooms_from_contours (H W : ℕ) (contours : List Contour)
    (hier : Option (List HEntry)) (minA : ℚ) (maxA : Option ℚ) : List RoomData :=
  let ma : ℚ := match maxA with
    | some m => m
    | none => ((H * W / 2 : ℕ) : ℚ)
  let p := segLoop H W minA ma contours hier 0 contours
  p.1 ++ p.2

/-- Normalized bounding-box area `(x2 - x1) * (y2 - y1)` of a room. -/
def boxArea (r : RoomData) : ℤ := (r.x_max - r.x_min) * (r.y_max - r.y_min)

/-- The clamped geometric intersection area of two rooms' boxes (zero when
the boxes do not properly overlap). -/
def interArea (a b : RoomData) : ℤ :=
  max 0 (min a.x_max b.x_max - max a.x_min b.x_min) *
    max 0 (min a.y_max b.y_max - max a.y_min b.y_min)

/-- The overlap test of `filter_and_rank_rooms` between the incoming `room`
and one already-accepted `existing` room: true when the boxes properly
intersect and either overlap ratio exceeds 5%. -/
def overlapCheck (room ex : RoomData) : Bool :=
  let ix1 := max room.x_min ex.x_min
  let iy1 := max room.y_min ex.y_min
  let ix2 := min room.x_max ex.x_max
  let iy2 := min room.y_max ex.y_max
  if ix1 < ix2 ∧ iy1 < iy2 then
    let ia : ℚ := (((ix2 - ix1) * (iy2 - iy1) : ℤ) : ℚ)
    let ratioThis : ℚ := ia / ((boxArea room : ℤ) : ℚ)
    let ratioEx : ℚ := if (boxArea ex : ℤ) ≠ 0 then ia / ((boxArea ex : ℤ) : ℚ) else 0
    decide (ratioThis > 1/20 ∨ ratioEx > 1/20)
  else false

/-- The greedy accept loop of `filter_and_rank_rooms` (`filtered_rooms`
accumulator; zero-area rooms are skipped by `continue` before the
`max_rooms` break check). -/
def dedupGo (maxRooms : ℕ) : List RoomData → List RoomData → List RoomData
  | acc, [] => acc
  | acc, r :: rest =>
    if boxArea r = 0 then dedupGo maxRooms acc rest
    else
      let acc2 := if acc.any (fun ex => overlapCheck r ex) then acc else acc ++ [r]
      if maxRooms ≤ acc2.length then acc2 else dedupGo maxRooms acc2 rest

/-- The sort order of `sorted(rooms, key=lambda r: r['area'], reverse=True)`:
stable descending by raw contour area. -/
def areaGE (a b : RoomData) : Prop := b.area ≤ a.area

instance : DecidableRel areaGE := fun a b => by unfold areaGE; infer_instance

instance : IsTotal RoomData areaGE := ⟨fun a b => le_total b.area a.area⟩

instance : IsTrans RoomData areaGE := ⟨fun _ _ _ h h' => le_trans h' h⟩

/-- `filter_and_rank_rooms(rooms, max_rooms=30, min_confidence=0.8)`
(the pipeline invokes it with `max_rooms = options.get('max_rooms', 20)`):
confidence filter, normalized-size filter (250000), stable sort by area
descending, then the strict greedy de-overlap loop capped at `max_rooms`. -/
def filter_and_rank_rooms (rooms : List RoomData) (maxRooms : ℕ) (minConf : ℚ) :
    List RoomData :=
  if rooms = [] then []
  else
    let confident := rooms.filter (fun r => decide (minConf ≤ r.confidence))
    let sizeOk := confident.filter (fun r => decide (¬ 250000 < boxArea r))
    let sorted := List.insertionSort areaGE sizeOk
    dedupGo maxRooms [] sorted

/-- The sort order of `sorted(text_regions, key=lambda x: x['confidence'],
reverse=True)`. -/
def confGE (a b : TextRegion) : Prop := b.confidence ≤ a.confidence

instance : DecidableRel confGE := fun a b => by unfold confGE; infer_instance

instance : IsTotal TextRegion confGE := ⟨fun a b => le_total b.confidence a.confidence⟩

instance : IsTrans TextRegion confGE := ⟨fun _ _ _ h h' => le_trans h' h⟩

/-- The containment-with-margin test of `associate_text_with_rooms`
(`text_in_room`, a 50-unit margin around the room box). -/
def textInRoom (room : RoomData) (t : TextRegion) : Prop :=
  t.x_min ≥ room.x_min - 50 ∧ t.y_min ≥ room.y_min - 50 ∧
    t.x_max ≤ room.x_max + 50 ∧ t.y_max ≤ room.y_max + 50

instance (room : RoomData) (t : TextRegion) : Decidable (textInRoom room t) := by
  unfold textInRoom; infer_instance

/-- The inner scan of `associate_text_with_rooms` over the still-available
text regions, tracking `(best_text_idx, best_text, best_distance)`;
distances are compared through their squares (the float `** 0.5` is
monotone), with `none` playing the role of `float('inf')`. -/
def findBestGo (md : ℕ) (room : RoomData) (rcx rcy : ℤ) :
    ℕ → List TextRegion → Option (ℕ × TextRegion × ℤ) → Option (ℕ × TextRegion × ℤ)
  | _, [], best => best
  | i, t :: rest, best =>
    let dd := (t.center_x - rcx) ^ 2 + (t.center_y - rcy) ^ 2
    let better : Bool :=
      match best with
      | none => true
      | some (_, _, bd) => decide (dd < bd)
    let nb :=
      if (decide (textInRoom room t) || decide (dd ≤ ((md : ℤ)) ^ 2)) && better then
        some (i, t, dd)
      else best
    findBestGo md room rcx rcy (i + 1) rest nb

/-- `list.pop(i)` on the available text pool. -/
def popIdx : List α → ℕ → List α
  | [], _ => []
  | _ :: xs, 0 => xs
  | x :: xs, n + 1 => x :: popIdx xs n

/-- `room_copy` update when a text region wins: attach `detected_name` and
`text_confidence`, leaving every other field unchanged. -/
def attachSome (r : RoomData) (t : TextRegion) : RoomData :=
  ⟨r.x_min, r.y_min, r.x_max, r.y_max, r.confidence, r.area, r.is_hallway,
    r.aspect, some t.text, t.confidence⟩

/-- `room_copy` update when no text region is eligible:
`detected_name = None`, `text_confidence = 0`. -/
def attachNone (r : RoomData) : RoomData :=
  ⟨r.x_min, r.y_min, r.x_max, r.y_max, r.confidence, r.area, r.is_hallway,
    r.aspect, none, 0⟩

/-- The per-room loop of `associate_text_with_rooms`: find the best
still-unassigned text region for each room in order, popping a winner from
the pool before the next room is processed. -/
def assocGo (md : ℕ) : List RoomData → List TextRegion → List RoomData
  | [], _ => []
  | room :: rest, pool =>
    let rcx := Int.fdiv (room.x_min + room.x_max) 2
    let rcy := Int.fdiv (room.y_min + room.y_max) 2
    match findBestGo md room rcx rcy 0 pool none with
    | some (i, t, _) => attachSome room t :: assocGo md rest (popIdx pool i)
    | none => attachNone room :: assocGo md rest pool

/-- `associate_text_with_rooms(rooms, text_regions, max_distance=150)`:
early return on an empty region list, otherwise the greedy assignment over
the confidence-sorted pool. -/
def associate_text_with_rooms (rooms : List RoomData) (regions : List TextRegion)
    (md : ℕ) : List RoomData :=
  if regions = [] then rooms
  else assocGo md rooms (List.insertionSort confGE regions)

/-- `s.lower().replace(" ", "_")` applied to a detected name. -/
def pyLowerUnderscore (s : String) : String :=
  (s.map Char.toLower).replace " " "_"

/-- `str.zfill(k)`: left-pad with zeros to length `k`. -/
def zfill (k : ℕ) (s : String) : String :=
  if k ≤ s.length then s else String.mk (List.replicate (k - s.length) '0') ++ s

/-- Python truthiness of `detected_name` (`if detected_name:`):
present and a non-empty string. -/
def dnTruthy (r : RoomData) : Prop :=
  match r.detected_name with
  | some t => t ≠ ""
  | none => False

instance (r : RoomData) : Decidable (dnTruthy r) := by
  unfold dnTruthy
  match r.detected_name with
  | some t => exact inferInstanceAs (Decidable (t ≠ ""))
  | none => exact inferInstanceAs (Decidable False)

/-- Build one `room_result` record from the formatted `(name_hint, room_id)`
pair; the OCR metadata is included exactly when `detected_name` is truthy. -/
def mkRes (room : RoomData) (nh rid : String) : RoomResult :=
  ⟨rid, room.x_min, room.y_min, room.x_max, room.y_max, nh,
    (if dnTruthy room then room.detected_name else none),
    (if dnTruthy room then room.text_confidence else 0)⟩

/-- Format one room given its 1-based per-class counter value `n`: the body
of the output loop of `detect_rooms` (identical for the hallway and room
branches up to the `"hallway"`/`"Hallway"` vs `"room"`/`"Room"` strings,
which are selected from `is_hallway`). -/
def fmtOne (room : RoomData) (n : ℕ) : RoomResult :=
  let cls : String := if room.is_hallway then "hallway_" else "room_"
  let gen : String := if room.is_hallway then "Hallway " else "Room "
  match room.detected_name with
  | some t =>
    if t ≠ "" ∧ (60 : ℚ) < room.text_confidence then
      mkRes room t (cls ++ pyLowerUnderscore t ++ "_" ++ zfill 2 (toString n))
    else mkRes room (gen ++ toString n) (cls ++ zfill 3 (toString n))
  | none => mkRes room (gen ++ toString n) (cls ++ zfill 3 (toString n))

/-- The result-formatting loop at the end of `detect_rooms`, carrying the
per-class counters `room_count` and `hallway_count`. -/
def formatGo : ℕ → ℕ → List RoomData → List RoomResult
  | _, _, [] => []
  | rc, hc, room :: rest =>
    if room.is_hallway then fmtOne room (hc + 1) :: formatGo rc (hc + 1) rest
    else fmtOne room (rc + 1) :: formatGo (rc + 1) hc rest

/-- The number of rooms of hallway-class `b` in a list: the value of the
per-class counter after the formatting loop has passed over the list. -/
def countClass (b : Bool) (l : List RoomData) : ℕ :=
  (l.filter (fun x => x.is_hallway = b)).length

/-- The pure tail of the `detect_rooms` pipeline: segmentation of the
(already enhanced) mask's contours, ranking, text association and result
formatting.  `min_area` defaults to 200 and `max_rooms` to 20 in the
pipeline; `min_confidence` is the ranker default `0.8` and `max_distance`
the associator default `150`. -/
def detect_rooms (H W : ℕ) (contours : List Contour) (hier : Option (List HEntry))
    (regions : List TextRegion) (minA : ℚ) (maxRooms : ℕ) : List RoomResult :=
  formatGo 0 0
    (associate_text_with_rooms
      (filter_and_rank_rooms (find_rooms_from_contours H W contours hier minA none)
        maxRooms (4/5))
      regions 150)

/-- One Hough line segment `(x1, y1, x2, y2)` in source-pixel coordinates. -/
structure Seg where
  x1 : ℕ
  y1 : ℕ
  x2 : ℕ
  y2 : ℕ
deriving DecidableEq

/-- One `cv2.line(enhanced, p1, p2, 255, 2)` command issued on the copied
mask by `extend_lines_for_open_plans`. -/
structure DrawCmd where
  px1 : ℕ
  py1 : ℕ
  px2 : ℕ
  py2 : ℕ
  color : ℕ
  thick : ℕ
deriving DecidableEq

/-- Left-to-right endpoint normalization of a horizontal line
(`if x1_1 > x2_1: swap both coordinate pairs`). -/
def hNorm (s : Seg) : Seg := if s.x2 < s.x1 then ⟨s.x2, s.y2, s.x1, s.y1⟩ else s

/-- Top-to-bottom endpoint normalization of a vertical line. -/
def vNorm (s : Seg) : Seg := if s.y2 < s.y1 then ⟨s.x2, s.y2, s.x1, s.y1⟩ else s

/-- `avg_y = (y1 + y2) // 2` of a (normalized) horizontal line. -/
def avgY (s : Seg) : ℕ := (s.y1 + s.y2) / 2

/-- `avg_x = (x1 + x2) // 2` of a (normalized) vertical line. -/
def avgX (s : Seg) : ℕ := (s.x1 + s.x2) / 2

/-- The horizontal pair step: for lines `l1` (earlier index) and `l2` (later
index), the drawn connecting command, if any.  `l2` must lie to the right of
`l1` (`x1_2 > x2_1`), the midlines must differ by less than 15, and the gap
must satisfy `0 < gap < max_gap`; the drawn length is `min(gap, max_extension)`
at thickness 2. -/
def hPair (maxGap maxExt : ℕ) (l1 l2 : Seg) : Option DrawCmd :=
  let a := hNorm l1
  let b := hNorm l2
  if ((avgY a : ℤ) - (avgY b : ℤ)).natAbs < 15 then
    if a.x2 < b.x1 then
      let gap := b.x1 - a.x2
      if 0 < gap ∧ gap < maxGap then
        some ⟨a.x2, avgY a, a.x2 + min gap maxExt, avgY b, 255, 2⟩
      else none
    else none
  else none

/-- The vertical pair step: `l2` (later index) must lie below `l1`. -/
def vPair (maxGap maxExt : ℕ) (l1 l2 : Seg) : Option DrawCmd :=
  let a := vNorm l1
  let b := vNorm l2
  if ((avgX a : ℤ) - (avgX b : ℤ)).natAbs < 15 then
    if a.y2 < b.y1 then
      let gap := b.y1 - a.y2
      if 0 < gap ∧ gap < maxGap then
        some ⟨avgX a, a.y2, avgX b, a.y2 + min gap maxExt, 255, 2⟩
      else none
    else none
  else none

/-- The `for i, line1 ... for j, line2 in enumerate(lines[i+1:], ...)` double
loop, collecting the drawn commands in program order. -/
def pairLoop (f : Seg → Seg → Option DrawCmd) : List Seg → List DrawCmd
  | [] => []
  | a :: rest => rest.filterMap (f a) ++ pairLoop f rest

/-- `extend_lines_for_open_plans(binary_image, horizontal_lines,
vertical_lines, max_gap=50, max_extension=80)`, modelled by the list of
`cv2.line` commands drawn on the derived copy of the mask; the input mask
and both line lists are untouched values. -/
def extend_lines_for_open_plans (hl vl : List Seg) (maxGap maxExt : ℕ) :
    List DrawCmd :=
  pairLoop (hPair maxGap maxExt) hl ++ pairLoop (vPair maxGap maxExt) vl

/-- A well-formed candidate box (the data-model invariant in the weak form
actually guaranteed by the segmenter): coordinates in non-decreasing order. -/
def wfBox (r : RoomData) : Prop := r.x_min ≤ r.x_max ∧ r.y_min ≤ r.y_max

instance (r : RoomData) : Decidable (wfBox r) := by unfold wfBox; infer_instance

/-- The dedup invariant between two rooms of one response: the intersection
is at most 5% of either room's bounding-box area. -/
def pairNoOverlap (a b : RoomData) : Prop :=
  20 * interArea a b ≤ boxArea a ∧ 20 * interArea a b ≤ boxArea b

instance (a b : RoomData) : Decidable (pairNoOverlap a b) := by
  unfold pairNoOverlap; infer_instance

/-- Equality of all fields of two rooms except the OCR fields
`detected_name` / `text_confidence`. -/
def coreEq (a b : RoomData) : Prop :=
  a.x_min = b.x_min ∧ a.y_min = b.y_min ∧ a.x_max = b.x_max ∧ a.y_max = b.y_max ∧
    a.confidence = b.confidence ∧ a.area = b.area ∧ a.is_hallway = b.is_hallway ∧
    a.aspect = b.aspect

/-- A formatted result carries the bounding box of its source room. -/
def resBoxEq (res : RoomResult) (room : RoomData) : Prop :=
  res.x_min = room.x_min ∧ res.y_min = room.y_min ∧
    res.x_max = room.x_max ∧ res.y_max = room.y_max

/-- Attach a list of per-room picks (the winning text region, if any) to a
room list. -/
def zipAttach (rooms : List RoomData) (picks : List (Option TextRegion)) :
    List RoomData :=
  List.zipWith
    (fun room o => match o with | some t => attachSome room t | none => attachNone room)
    rooms picks

/-- The instrumented associator loop: the same recursion as `assocGo`, but
recording, per room, which text region (if any) was popped for it. -/
def assocGoP (md : ℕ) : List RoomData → List TextRegion → List (Option TextRegion)
  | [], _ => []
  | room :: rest, pool =>
    let rcx := Int.fdiv (room.x_min + room.x_max) 2
    let rcy := Int.fdiv (room.y_min + room.y_max) 2
    match findBestGo md room rcx rcy 0 pool none with
    | some (i, t, _) => some t :: assocGoP md rest (popIdx pool i)
    | none => none :: assocGoP md rest pool

/-! ## Lemmas: line extension heuristic -/

lemma get?_cons_succ' {α} (x : α) (l : List α) (n : ℕ) :
    (x :: l).get? (n + 1) = l.get? n := rfl

lemma pairLoop_mem {f : Seg → Seg → Option DrawCmd} :
    ∀ (l : List Seg) (i j : ℕ) (a b : Seg) (c : DrawCmd),
      l.get? i = some a → l.get? j = some b → i < j → f a b = some c →
      c ∈ pairLoop f l := by
  intro l
  induction l with
  | nil => intro i j a b c ha _ _ _; simp at ha
  | cons x rest ih =>
    intro i j a b c ha hb hij hf
    match i, j with
    | 0, 0 => exact absurd hij (lt_irrefl 0)
    | 0, j' + 1 =>
      have hax : x = a := by simpa using ha
      subst hax
      have hb' : rest.get? j' = some b := hb
      have hmem : c ∈ rest.filterMap (f x) :=
        List.mem_filterMap.mpr ⟨b, List.get?_mem hb', hf⟩
      simp only [pairLoop]
      exact List.mem_append.mpr (Or.inl hmem)
    | i' + 1, 0 => exact absurd hij (by omega)
    | i' + 1, j' + 1 =>
      have : c ∈ pairLoop f rest := ih i' j' a b c ha hb (by omega) hf
      simp only [pairLoop]
      exact List.mem_append.mpr (Or.inr this)

/-- C7 (amended): for every ordered pair of same-orientation wall lines in
list order (indices `i < j`) whose midline coordinates differ by less than
15, if the later line lies beyond the earlier one along the axis (to the
right for horizontal lines, below for vertical ones) with gap
`0 < g < max_gap`, then `extend_lines_for_open_plans` draws a 2-pixel-thick
connecting segment of length `min(g, max_extension)` on the enhanced-mask
copy; the embedding is a pure function of the mask and line lists, which
are left untouched. -/
theorem ordered_aligned_gap_draws_segment
    (hl vl : List Seg) (maxGap maxExt i j : ℕ) :
    (∀ l1 l2, hl.get? i = some l1 → hl.get? j = some l2 → i < j →
      ((avgY (hNorm l1) : ℤ) - (avgY (hNorm l2) : ℤ)).natAbs < 15 →
      (hNorm l1).x2 < (hNorm l2).x1 →
      (hNorm l2).x1 - (hNorm l1).x2 < maxGap →
      (⟨(hNorm l1).x2, avgY (hNorm l1),
        (hNorm l1).x2 + min ((hNorm l2).x1 - (hNorm l1).x2) maxExt,
        avgY (hNorm l2), 255, 2⟩ : DrawCmd)
        ∈ extend_lines_for_open_plans hl vl maxGap maxExt) ∧
    (∀ l1 l2, vl.get? i = some l1 → vl.get? j = some l2 → i < j →
      ((avgX (vNorm l1) : ℤ) - (avgX (vNorm l2) : ℤ)).natAbs < 15 →
      (vNorm l1).y2 < (vNorm l2).y1 →
      (vNorm l2).y1 - (vNorm l1).y2 < maxGap →
      (⟨avgX (vNorm l1), (vNorm l1).y2,
        avgX (vNorm l2), (vNorm l1).y2 + min ((vNorm l2).y1 - (vNorm l1).y2) maxExt,
        255, 2⟩ : DrawCmd)
        ∈ extend_lines_for_open_plans hl vl maxGap maxExt) := by
  constructor
  · intro l1 l2 h1 h2 hij halign hright hgap
    have hpair : hPair maxGap maxExt l1 l2 =
        some ⟨(hNorm l1).x2, avgY (hNorm l1),
          (hNorm l1).x2 + min ((hNorm l2).x1 - (hNorm l1).x2) maxExt,
          avgY (hNorm l2), 255, 2⟩ := by
      simp only [hPair]
      rw [if_pos halign, if_pos hright, if_pos ⟨Nat.sub_pos_of_lt hright, hgap⟩]
    exact List.mem_append.mpr
      (Or.inl (pairLoop_mem hl i j l1 l2 _ h1 h2 hij hpair))
  · intro l1 l2 h1 h2 hij halign hbelow hgap
    have hpair : vPair maxGap maxExt l1 l2 =
        some ⟨avgX (vNorm l1), (vNorm l1).y2,
          avgX (vNorm l2), (vNorm l1).y2 + min ((vNorm l2).y1 - (vNorm l1).y2) maxExt,
          255, 2⟩ := by
      simp only [vPair]
      rw [if_pos halign, if_pos hbelow, if_pos ⟨Nat.sub_pos_of_lt hbelow, hgap⟩]
    exact List.mem_append.mpr
      (Or.inr (pairLoop_mem vl i j l1 l2 _ h1 h2 hij hpair))

/-- Witness for C7 (amended) at a concrete input: two aligned horizontal
lines in left-to-right list order with gap 40 produce the bridging command
from `x = 60` to `x = 100` at thickness 2. -/
theorem ordered_aligned_gap_draws_segment_witness :
    (⟨60, 10, 100, 10, 255, 2⟩ : DrawCmd) ∈
      extend_lines_for_open_plans [⟨0, 10, 60, 10⟩, ⟨100, 10, 150, 10⟩] [] 50 80 := by
  have h := (ordered_aligned_gap_draws_segment
      [⟨0, 10, 60, 10⟩, ⟨100, 10, 150, 10⟩] [] 50 80 0 1).1
      ⟨0, 10, 60, 10⟩ ⟨100, 10, 150, 10⟩ rfl rfl (by decide) (by decide) (by decide)
      (by decide)
  simpa using h

/-- Counterexample to C7 as stated (for every *unordered* pair): the same
two aligned lines with gap 40 listed right-line-first satisfy every
alignment and gap condition of the claim, yet no segment at all is drawn. -/
theorem unordered_aligned_gap_no_segment :
    ((hNorm ⟨0, 10, 60, 10⟩).x2 < (hNorm ⟨100, 10, 150, 10⟩).x1 ∧
      ((avgY (hNorm ⟨100, 10, 150, 10⟩) : ℤ) -
        (avgY (hNorm ⟨0, 10, 60, 10⟩) : ℤ)).natAbs < 15 ∧
      0 < (hNorm ⟨100, 10, 150, 10⟩).x1 - (hNorm ⟨0, 10, 60, 10⟩).x2 ∧
      (hNorm ⟨100, 10, 150, 10⟩).x1 - (hNorm ⟨0, 10, 60, 10⟩).x2 < 50) ∧
    extend_lines_for_open_plans [⟨100, 10, 150, 10⟩, ⟨0, 10, 60, 10⟩] [] 50 80 = [] := by
  decide

/-! ## Lemmas: contour segmenter -/

lemma processContour_some {H W : ℕ} {minA maxA : ℚ} {contours : List Contour}
    {hier : Option (List HEntry)} {i : ℕ} {c : Contour} {rd : RoomData}
    (h : processContour H W minA maxA contours hier i c = some rd) :
    rd.x_min = (normCoord c.x W : ℤ) ∧ rd.y_min = (normCoord c.y H : ℤ) ∧
    rd.x_max = (normCoord (c.x + c.w) W : ℤ) ∧
    rd.y_max = (normCoord (c.y + c.h) H : ℤ) ∧
    rd.confidence = roundTo2 (segConfidence H W c.area) := by
  simp only [processContour] at h
  split_ifs at h
  obtain rfl := (Option.some.injEq _ _).mp h
  exact ⟨rfl, rfl, rfl, rfl, rfl⟩

lemma segLoop_forall {H W : ℕ} {minA maxA : ℚ} {contours : List Contour}
    {hier : Option (List HEntry)} {Q : RoomData → Prop} :
    ∀ (l : List Contour) (i0 : ℕ),
      (∀ i c rd, c ∈ l →
        processContour H W minA maxA contours hier i c = some rd → Q rd) →
      (∀ rd ∈ (segLoop H W minA maxA contours hier i0 l).1, Q rd) ∧
      (∀ rd ∈ (segLoop H W minA maxA contours hier i0 l).2, Q rd) := by
  intro l
  induction l with
  | nil => intro i0 _; simp [segLoop]
  | cons c rest ih =>
    intro i0 hQ
    have hrest := ih (i0 + 1) (fun i c' rd hc' => hQ i c' rd (List.mem_cons_of_mem _ hc'))
    simp only [segLoop]
    cases hp : processContour H W minA maxA contours hier i0 c with
    | none => exact hrest
    | some rd' =>
      have hQ' : Q rd' := hQ i0 c rd' (List.mem_cons_self _ _) hp
      by_cases hhall : rd'.is_hallway
      · simp only [hhall, if_pos]
        refine ⟨hrest.1, ?_⟩
        intro rd hrd
        rcases List.mem_cons.mp hrd with rfl | hrd'
        · exact hQ'
        · exact hrest.2 rd hrd'
      · simp only [hhall, if_neg, Bool.false_eq_true, not_false_eq_true]
        refine ⟨?_, hrest.2⟩
        intro rd hrd
        rcases List.mem_cons.mp hrd with rfl | hrd'
        · exact hQ'
        · exact hrest.1 rd hrd'

lemma find_rooms_forall {H W : ℕ} {minA : ℚ} {maxA : Option ℚ}
    {contours : List Contour} {hier : Option (List HEntry)} {Q : RoomData → Prop}
    (hQ : ∀ i c rd, c ∈ contours →
      processContour H W minA
        (match maxA with | some m => m | none => ((H * W / 2 : ℕ) : ℚ))
        contours hier i c = some rd → Q rd) :
    ∀ rd ∈ find_rooms_from_contours H W contours hier minA maxA, Q rd := by
  intro rd hrd
  simp only [find_rooms_from_contours] at hrd
  rcases List.mem_append.mp hrd with hmem | hmem
  · exact (segLoop_forall contours 0 hQ).1 rd hmem
  · exact (segLoop_forall contours 0 hQ).2 rd hmem

lemma normCoord_mono {a b dim : ℕ} (h : a ≤ b) : normCoord a dim ≤ normCoord b dim :=
  Nat.div_le_div_right (Nat.mul_le_mul_right _ h)

lemma normCoord_le_1000 {v dim : ℕ} (h : v ≤ dim) : normCoord v dim ≤ 1000 := by
  rcases Nat.eq_zero_or_pos dim with hz | hpos
  · subst hz
    interval_cases v
    simp [normCoord]
  · calc normCoord v dim ≤ normCoord dim dim := normCoord_mono h
      _ = 1000 := by
        simp only [normCoord]
        rw [Nat.mul_comm, Nat.mul_div_cancel _ hpos]

lemma roundTo2_bounds {q : ℚ} (h1 : 2/5 ≤ q) (h2 : q ≤ 19/20) :
    0 ≤ roundTo2 q ∧ roundTo2 q ≤ 1 := by
  have hlo : (0 : ℤ) ≤ round (q * 100) := by
    rw [round_eq]
    exact Int.le_floor.mpr (by push_cast; nlinarith)
  have hhi : round (q * 100) ≤ 100 := by
    rw [round_eq]
    have : (⌊q * 100 + 1 / 2⌋ : ℤ) < 101 := Int.floor_lt.mpr (by push_cast; nlinarith)
    omega
  constructor
  · simp only [roundTo2]
    exact div_nonneg (by exact_mod_cast hlo) (by norm_num)
  · simp only [roundTo2]
    rw [div_le_one (by norm_num)]
    exact_mod_cast hhi

lemma segConfidence_range (H W : ℕ) (area : ℚ) :
    2/5 ≤ segConfidence H W area ∧ segConfidence H W area ≤ 19/20 := by
  simp only [segConfidence]
  split_ifs
  · exact ⟨le_refl _, by norm_num⟩
  · constructor
    · exact le_min (by norm_num)
        (le_trans (by norm_num : (2/5 : ℚ) ≤ 1/2) (le_max_left _ _))
    · exact min_le_left _ _

/-- C5 (amended): every contour accepted by the segmenter stores, as its
candidate's confidence, the claimed value rounded to two decimal places
(Python `round(confidence, 2)`): `round2(0.4)` when `normalized_area > 0.25`,
otherwise `round2(clamp(normalized_area * 50, 0.5, 0.95))`; in all cases the
stored confidence lies in `[0, 1]`. -/
theorem confidence_eq_rounded_clamp (H W : ℕ) (minA maxA : ℚ)
    (contours : List Contour) (hier : Option (List HEntry)) (i : ℕ)
    (c : Contour) (rd : RoomData)
    (h : processContour H W minA maxA contours hier i c = some rd) :
    rd.confidence = roundTo2 (segConfidence H W c.area) ∧
      0 ≤ rd.confidence ∧ rd.confidence ≤ 1 := by
  obtain ⟨-, -, -, -, hconf⟩ := processContour_some h
  have hr := segConfidence_range H W c.area
  have hb := roundTo2_bounds hr.1 hr.2
  exact ⟨hconf, by rw [hconf]; exact hb.1, by rw [hconf]; exact hb.2⟩

/-- Witness for C5 (amended): the concrete accepted contour of area 10240 in
a 1000 x 1000 image stores confidence `round2(0.512) = 0.51`, inside `[0,1]`. -/
theorem confidence_eq_rounded_clamp_witness :
    (⟨0, 0, 120, 120, 51/100, 10240, false, 1, none, 0⟩ : RoomData).confidence =
        roundTo2 (segConfidence 1000 1000 10240) ∧
      0 ≤ (⟨0, 0, 120, 120, 51/100, 10240, false, 1, none, 0⟩ : RoomData).confidence ∧
      (⟨0, 0, 120, 120, 51/100, 10240, false, 1, none, 0⟩ : RoomData).confidence ≤ 1 :=
  confidence_eq_rounded_clamp 1000 1000 300 500000 [⟨10240, 0, 0, 120, 120⟩]
    (some [⟨-1, -1, -1, -1⟩]) 0 ⟨10240, 0, 0, 120, 120⟩ _ (by decide)

/-- Counterexample to C5 as stated: the accepted contour of area 10240 in a
1000 x 1000 image has `normalized_area = 0.01024 <= 0.25`, and the claim
requires its confidence to equal `clamp(0.512, 0.5, 0.95) = 0.512`; the code
stores `round(0.512, 2) = 0.51` instead. -/
theorem confidence_rounded_ne_clamp :
    ∃ rd ∈ find_rooms_from_contours 1000 1000 [⟨10240, 0, 0, 120, 120⟩]
        (some [⟨-1, -1, -1, -1⟩]) 300 none,
      ¬ (10240 : ℚ) / ((1000 * 1000 : ℕ) : ℚ) > 1/4 ∧
      rd.confidence ≠
        min (19/20) (max (1/2) ((10240 : ℚ) / ((1000 * 1000 : ℕ) : ℚ) * 50)) := by
  decide

/-- C2 (amended): a contour that has at least one child in the hierarchy and
whose area exceeds 25% of the total image area never yields a RoomCandidate
(it is rejected by the container test, or already by the area filter). -/
theorem huge_parent_contour_rejected (H W : ℕ) (minA maxA : ℚ)
    (contours : List Contour) (hh : List HEntry) (i : ℕ) (c : Contour)
    (hchild : (hGet hh (i : ℤ)).child ≠ -1)
    (hpos : 0 < H * W)
    (hhuge : 1/4 < c.area / ((H * W : ℕ) : ℚ)) :
    processContour H W minA maxA contours (some hh) i c = none := by
  have hposq : (0 : ℚ) < ((H * W : ℕ) : ℚ) := by exact_mod_cast hpos
  have hskip : shouldSkipParent H W minA contours hh i c := by
    simp only [shouldSkipParent]
    rw [if_pos hposq]
    exact Or.inr hhuge
  simp only [processContour]
  split_ifs with h1 h2 h3
  · rfl
  · rfl
  · rfl
  · exact absurd (by simp [hchild, hskip]) h2

/-- Witness for C2 (amended): a concrete contour with one child and 30% of
the image area is rejected. -/
theorem huge_parent_contour_rejected_witness :
    processContour 10 10 1 1000 [⟨30, 0, 0, 6, 6⟩, ⟨10, 1, 1, 3, 3⟩]
      (some [⟨-1, -1, 1, -1⟩, ⟨-1, -1, -1, 0⟩]) 0 ⟨30, 0, 0, 6, 6⟩ = none :=
  huge_parent_contour_rejected 10 10 1 1000 [⟨30, 0, 0, 6, 6⟩, ⟨10, 1, 1, 3, 3⟩]
    [⟨-1, -1, 1, -1⟩, ⟨-1, -1, -1, 0⟩] 0 ⟨30, 0, 0, 6, 6⟩ (by decide) (by decide)
    (by norm_num)

/-- Counterexample to C2 as stated: a *childless* contour covering 30% of a
100 x 100 image (area 3000 > 25% of 10000) is not rejected — the segmenter
emits a candidate for it, because the 25%-of-image rejection is only applied
to contours that have children. -/
theorem huge_childless_contour_kept :
    (1/4 : ℚ) < (3000 : ℚ) / ((100 * 100 : ℕ) : ℚ) ∧
    (hGet [⟨-1, -1, -1, -1⟩] (0 : ℤ)).child = -1 ∧
    (find_rooms_from_contours 100 100 [⟨3000, 10, 10, 60, 60⟩]
        (some [⟨-1, -1, -1, -1⟩]) 300 none).length = 1 := by
  decide

/-- C3 (amended): every RoomCandidate produced by the segmenter satisfies
`x_min <= x_max` and `y_min <= y_max` after normalization to the 0-1000
scale; zero-area boxes are *not* dropped by the segmenter (they are dropped
later, by the ranker's zero-area skip). -/
theorem candidate_box_monotone (H W : ℕ) (contours : List Contour)
    (hier : Option (List HEntry)) (minA : ℚ) (maxA : Option ℚ) :
    ∀ rd ∈ find_rooms_from_contours H W contours hier minA maxA,
      rd.x_min ≤ rd.x_max ∧ rd.y_min ≤ rd.y_max := by
  apply find_rooms_forall
  intro i c rd _ h
  obtain ⟨h1, h2, h3, h4, -⟩ := processContour_some h
  rw [h1, h2, h3, h4]
  constructor
  · exact_mod_cast normCoord_mono (Nat.le_add_right c.x c.w)
  · exact_mod_cast normCoord_mono (Nat.le_add_right c.y c.h)

/-- Counterexample to C3 as stated: in a 1000000 x 1000000 image, an accepted
contour with bounding rectangle 100 x 500 normalizes to the zero-area box
`(0, 0, 0, 0)`, and this candidate *does* appear in the segmenter's output. -/
theorem zero_width_candidate_in_output :
    ∃ rd ∈ find_rooms_from_contours 1000000 1000000 [⟨300, 0, 0, 100, 500⟩]
        (some [⟨-1, -1, -1, -1⟩]) 200 none,
      ¬(rd.x_min < rd.x_max ∧ rd.y_min < rd.y_max) := by
  decide

/-! ## Lemmas: deduplicating ranker -/

lemma dedupGo_extends (m : ℕ) :
    ∀ (l acc : List RoomData), ∃ s, s.Sublist l ∧ dedupGo m acc l = acc ++ s := by
  intro l
  induction l with
  | nil => intro acc; exact ⟨[], List.nil_sublist _, by simp [dedupGo]⟩
  | cons r rest ih =>
    intro acc
    simp only [dedupGo]
    by_cases hz : boxArea r = 0
    · rw [if_pos hz]
      obtain ⟨s, hs, he⟩ := ih acc
      exact ⟨s, hs.cons r, he⟩
    · rw [if_neg hz]
      by_cases hov : acc.any (fun ex => overlapCheck r ex) = true
      · simp only [hov, if_true]
        by_cases hm : m ≤ acc.length
        · rw [if_pos hm]; exact ⟨[], List.nil_sublist _, by simp⟩
        · rw [if_neg hm]
          obtain ⟨s, hs, he⟩ := ih acc
          exact ⟨s, hs.cons r, he⟩
      · simp only [hov, if_false, Bool.false_eq_true]
        by_cases hm : m ≤ (acc ++ [r]).length
        · rw [if_pos hm]
          exact ⟨[r], (List.nil_sublist rest).cons₂ r, rfl⟩
        · rw [if_neg hm]
          obtain ⟨s, hs, he⟩ := ih (acc ++ [r])
          exact ⟨r :: s, hs.cons₂ r, by rw [he, List.append_assoc, List.singleton_append]⟩

lemma dedupGo_length (m : ℕ) :
    ∀ (l acc : List RoomData), acc.length < m → (dedupGo m acc l).length ≤ m := by
  intro l
  induction l with
  | nil => intro acc h; simpa [dedupGo] using le_of_lt h
  | cons r rest ih =>
    intro acc h
    simp only [dedupGo]
    by_cases hz : boxArea r = 0
    · rw [if_pos hz]; exact ih acc h
    · rw [if_neg hz]
      by_cases hov : acc.any (fun ex => overlapCheck r ex) = true
      · simp only [hov, if_true]
        by_cases hm : m ≤ acc.length
        · rw [if_pos hm]; exact le_of_lt h
        · rw [if_neg hm]; exact ih acc h
      · simp only [hov, if_false, Bool.false_eq_true]
        have hlen : (acc ++ [r]).length = acc.length + 1 := by simp
        by_cases hm : m ≤ (acc ++ [r]).length
        · rw [if_pos hm]; omega
        · rw [if_neg hm]; exact ih (acc ++ [r]) (by omega)

lemma dedupGo_mem (m : ℕ) :
    ∀ (l acc : List RoomData) (r : RoomData), r ∈ dedupGo m acc l →
      r ∈ acc ∨ (r ∈ l ∧ boxArea r ≠ 0) := by
  intro l
  induction l with
  | nil => intro acc r h; simp only [dedupGo] at h; exact Or.inl h
  | cons x rest ih =>
    intro acc r h
    simp only [dedupGo] at h
    by_cases hz : boxArea x = 0
    · rw [if_pos hz] at h
      rcases ih acc r h with h' | ⟨h1, h2⟩
      · exact Or.inl h'
      · exact Or.inr ⟨List.mem_cons_of_mem _ h1, h2⟩
    · rw [if_neg hz] at h
      by_cases hov : acc.any (fun ex => overlapCheck x ex) = true
      · simp only [hov, if_true] at h
        by_cases hm : m ≤ acc.length
        · rw [if_pos hm] at h; exact Or.inl h
        · rw [if_neg hm] at h
          rcases ih acc r h with h' | ⟨h1, h2⟩
          · exact Or.inl h'
          · exact Or.inr ⟨List.mem_cons_of_mem _ h1, h2⟩
      · simp only [hov, if_false, Bool.false_eq_true] at h
        have hsplit : r ∈ acc ++ [x] → r ∈ acc ∨ (r ∈ x :: rest ∧ boxArea r ≠ 0) := by
          intro hmem
          rcases List.mem_append.mp hmem with h' | h'
          · exact Or.inl h'
          · obtain rfl := List.mem_singleton.mp h'
            exact Or.inr ⟨List.mem_cons_self _ _, hz⟩
        by_cases hm : m ≤ (acc ++ [x]).length
        · rw [if_pos hm] at h; exact hsplit h
        · rw [if_neg hm] at h
          rcases ih (acc ++ [x]) r h with h' | ⟨h1, h2⟩
          · exact hsplit h'
          · exact Or.inr ⟨List.mem_cons_of_mem _ h1, h2⟩

lemma interArea_comm (a b : RoomData) : interArea a b = interArea b a := by
  simp only [interArea]
  rw [min_comm a.x_max b.x_max, max_comm a.x_min b.x_min,
    min_comm a.y_max b.y_max, max_comm a.y_min b.y_min]

lemma overlapCheck_false_pair {r ex : RoomData}
    (hra : 0 < boxArea r) (hea : 0 < boxArea ex)
    (h : overlapCheck r ex = false) : pairNoOverlap ex r := by
  simp only [overlapCheck] at h
  by_cases hcond : max r.x_min ex.x_min < min r.x_max ex.x_max ∧
      max r.y_min ex.y_min < min r.y_max ex.y_max
  · rw [if_pos hcond] at h
    simp only [decide_eq_false_iff_not, not_or, not_lt] at h
    obtain ⟨h1, h2⟩ := h
    have hexne : (boxArea ex : ℤ) ≠ 0 := ne_of_gt hea
    rw [if_pos hexne] at h2
    have hia : interArea r ex =
        (min r.x_max ex.x_max - max r.x_min ex.x_min) *
          (min r.y_max ex.y_max - max r.y_min ex.y_min) := by
      simp only [interArea]
      rw [max_eq_right (le_of_lt (Int.sub_pos.mpr hcond.1)),
        max_eq_right (le_of_lt (Int.sub_pos.mpr hcond.2))]
    have hraq : (0 : ℚ) < ((boxArea r : ℤ) : ℚ) := by exact_mod_cast hra
    have heaq : (0 : ℚ) < ((boxArea ex : ℤ) : ℚ) := by exact_mod_cast hea
    have h1' : (((min r.x_max ex.x_max - max r.x_min ex.x_min) *
        (min r.y_max ex.y_max - max r.y_min ex.y_min) : ℤ) : ℚ) ≤
        (1/20) * ((boxArea r : ℤ) : ℚ) := by
      rw [div_le_iff hraq] at h1; linarith
    have h2' : (((min r.x_max ex.x_max - max r.x_min ex.x_min) *
        (min r.y_max ex.y_max - max r.y_min ex.y_min) : ℤ) : ℚ) ≤
        (1/20) * ((boxArea ex : ℤ) : ℚ) := by
      rw [div_le_iff heaq] at h2; linarith
    constructor
    · rw [interArea_comm, hia]
      have hq : (20 : ℚ) * (((min r.x_max ex.x_max - max r.x_min ex.x_min) *
          (min r.y_max ex.y_max - max r.y_min ex.y_min) : ℤ) : ℚ) ≤
          ((boxArea ex : ℤ) : ℚ) := by linarith [h2']
      exact_mod_cast hq
    · rw [interArea_comm, hia]
      have hq : (20 : ℚ) * (((min r.x_max ex.x_max - max r.x_min ex.x_min) *
          (min r.y_max ex.y_max - max r.y_min ex.y_min) : ℤ) : ℚ) ≤
          ((boxArea r : ℤ) : ℚ) := by linarith [h1']
      exact_mod_cast hq
  · have hia : interArea r ex = 0 := by
      simp only [interArea]
      rcases not_and_or.mp hcond with hx | hy
      · rw [max_eq_left (by omega : min r.x_max ex.x_max - max r.x_min ex.x_min ≤ 0)]
        ring
      · rw [max_eq_left (by omega : min r.y_max ex.y_max - max r.y_min ex.y_min ≤ 0)]
        ring
    constructor
    · rw [interArea_comm, hia]; simpa using le_of_lt hea
    · rw [interArea_comm, hia]; simpa using le_of_lt hra

lemma wfBox_pos_of_ne {r : RoomData} (hwf : wfBox r) (hz : boxArea r ≠ 0) :
    0 < boxArea r := by
  obtain ⟨h1, h2⟩ := hwf
  have hx : 0 ≤ r.x_max - r.x_min := by omega
  have hy : 0 ≤ r.y_max - r.y_min := by omega
  have : 0 ≤ boxArea r := mul_nonneg hx hy
  omega

lemma dedupGo_pairwise (m : ℕ) :
    ∀ (l acc : List RoomData),
      (∀ a ∈ acc, 0 < boxArea a) →
      List.Pairwise pairNoOverlap acc →
      (∀ x ∈ l, wfBox x) →
      (∀ a ∈ dedupGo m acc l, 0 < boxArea a) ∧
        List.Pairwise pairNoOverlap (dedupGo m acc l) := by
  intro l
  induction l with
  | nil => intro acc hpos hpw _; simpa [dedupGo] using ⟨hpos, hpw⟩
  | cons r rest ih =>
    intro acc hpos hpw hwf
    have hwfrest : ∀ x ∈ rest, wfBox x := fun x hx => hwf x (List.mem_cons_of_mem _ hx)
    simp only [dedupGo]
    by_cases hz : boxArea r = 0
    · rw [if_pos hz]; exact ih acc hpos hpw hwfrest
    · rw [if_neg hz]
      have hrpos : 0 < boxArea r := wfBox_pos_of_ne (hwf r (List.mem_cons_self _ _)) hz
      by_cases hov : acc.any (fun ex => overlapCheck r ex) = true
      · simp only [hov, if_true]
        by_cases hm : m ≤ acc.length
        · rw [if_pos hm]; exact ⟨hpos, hpw⟩
        · rw [if_neg hm]; exact ih acc hpos hpw hwfrest
      · simp only [hov, if_false, Bool.false_eq_true]
        have hall : ∀ ex ∈ acc, overlapCheck r ex = false := by
          intro ex hex
          by_contra hne
          exact hov (List.any_eq_true.mpr ⟨ex, hex, by simpa using hne⟩)
        have hpos' : ∀ a ∈ acc ++ [r], 0 < boxArea a := by
          intro a ha
          rcases List.mem_append.mp ha with h' | h'
          · exact hpos a h'
          · obtain rfl := List.mem_singleton.mp h'; exact hrpos
        have hpw' : List.Pairwise pairNoOverlap (acc ++ [r]) := by
          rw [List.pairwise_append]
          refine ⟨hpw, List.pairwise_singleton _ _, ?_⟩
          intro a ha b hb
          obtain rfl := List.mem_singleton.mp hb
          exact overlapCheck_false_pair hrpos (hpos a ha) (hall a ha)
        by_cases hm : m ≤ (acc ++ [r]).length
        · rw [if_pos hm]; exact ⟨hpos', hpw'⟩
        · rw [if_neg hm]; exact ih (acc ++ [r]) hpos' hpw' hwfrest

lemma ranker_mem {rooms : List RoomData} {m : ℕ} {mc : ℚ} :
    ∀ r ∈ filter_and_rank_rooms rooms m mc,
      r ∈ rooms ∧ mc ≤ r.confidence ∧ ¬ 250000 < boxArea r ∧ boxArea r ≠ 0 := by
  intro r hr
  simp only [filter_and_rank_rooms] at hr
  split_ifs at hr with hempty
  · simp at hr
  · rcases dedupGo_mem m _ [] r hr with h' | ⟨hmem, hz⟩
    · simp at h'
    · have hmem2 : r ∈ (rooms.filter (fun r => decide (mc ≤ r.confidence))).filter
          (fun r => decide (¬ 250000 < boxArea r)) :=
        (List.perm_insertionSort areaGE _).subset hmem
      have h3 := List.mem_filter.mp hmem2
      have h4 := List.mem_filter.mp h3.1
      refine ⟨h4.1, by simpa using h4.2, by simpa using h3.2, hz⟩

/-- C1: for every list of room candidates with well-formed boxes, the
ranker (invoked by the pipeline with `max_rooms` defaulting to 20 and
`min_confidence` defaulting to 0.8) returns at most `max_rooms` rooms, every
returned room has confidence at least `min_confidence`, and every pair of
returned rooms overlaps by at most 5% of either one's bounding-box area. -/
theorem ranker_bounded_confident_nonoverlapping
    (rooms : List RoomData) (maxRooms : ℕ) (minConf : ℚ)
    (hmax : 1 ≤ maxRooms) (hwf : ∀ r ∈ rooms, wfBox r) :
    (filter_and_rank_rooms rooms maxRooms minConf).length ≤ maxRooms ∧
    (∀ r ∈ filter_and_rank_rooms rooms maxRooms minConf, minConf ≤ r.confidence) ∧
    List.Pairwise pairNoOverlap (filter_and_rank_rooms rooms maxRooms minConf) := by
  refine ⟨?_, fun r hr => (ranker_mem r hr).2.1, ?_⟩
  · simp only [filter_and_rank_rooms]
    split_ifs with hempty
    · simpa using hmax
    · exact dedupGo_length maxRooms _ [] (by simpa using hmax)
  · simp only [filter_and_rank_rooms]
    split_ifs with hempty
    · exact List.Pairwise.nil
    · refine (dedupGo_pairwise maxRooms _ [] (by simp) List.Pairwise.nil ?_).2
      intro x hx
      have hmem : x ∈ (rooms.filter (fun r => decide (minConf ≤ r.confidence))).filter
          (fun r => decide (¬ 250000 < boxArea r)) :=
        (List.perm_insertionSort areaGE _).subset hx
      exact hwf x (List.mem_filter.mp (List.mem_filter.mp hmem).1).1

/-- Witness for C1 at a concrete input: a single well-formed candidate with
confidence 0.9, ranked with the pipeline defaults. -/
theorem ranker_bounded_confident_nonoverlapping_witness :
    (1 ≤ 20 ∧
      ∀ r ∈ [(⟨0, 0, 100, 100, 9/10, 500, false, 1, none, 0⟩ : RoomData)], wfBox r) ∧
    ((filter_and_rank_rooms [⟨0, 0, 100, 100, 9/10, 500, false, 1, none, 0⟩] 20
        (4/5)).length ≤ 20 ∧
      (∀ r ∈ filter_and_rank_rooms [⟨0, 0, 100, 100, 9/10, 500, false, 1, none, 0⟩] 20
        (4/5), (4/5 : ℚ) ≤ r.confidence) ∧
      List.Pairwise pairNoOverlap
        (filter_and_rank_rooms [⟨0, 0, 100, 100, 9/10, 500, false, 1, none, 0⟩] 20
          (4/5))) :=
  ⟨⟨by decide, by decide⟩,
    ranker_bounded_confident_nonoverlapping
      [⟨0, 0, 100, 100, 9/10, 500, false, 1, none, 0⟩] 20 (4/5) (by decide) (by decide)⟩

lemma dedupGo_replay (m : ℕ) :
    ∀ (l acc s : List RoomData),
      dedupGo m acc l = acc ++ s → dedupGo m acc s = acc ++ s := by
  intro l
  induction l with
  | nil =>
    intro acc s h
    simp only [dedupGo] at h
    have hs : s = [] := by
      have hlen := congrArg List.length h
      simp at hlen
      exact hlen
    subst hs
    simp [dedupGo]
  | cons r rest ih =>
    intro acc s h
    simp only [dedupGo] at h
    by_cases hz : boxArea r = 0
    · rw [if_pos hz] at h; exact ih acc s h
    · rw [if_neg hz] at h
      by_cases hov : acc.any (fun ex => overlapCheck r ex) = true
      · simp only [hov, if_true] at h
        by_cases hm : m ≤ acc.length
        · rw [if_pos hm] at h
          have hs : s = [] := by
            have hlen := congrArg List.length h
            simp at hlen
            exact hlen
          subst hs
          simp [dedupGo]
        · rw [if_neg hm] at h; exact ih acc s h
      · simp only [hov, if_false, Bool.false_eq_true] at h
        by_cases hm : m ≤ (acc ++ [r]).length
        · rw [if_pos hm] at h
          have hs : s = [r] := List.append_cancel_left h.symm
          subst hs
          simp only [dedupGo]
          rw [if_neg hz]
          simp only [hov, if_false, Bool.false_eq_true]
          rw [if_pos hm]
        · rw [if_neg hm] at h
          obtain ⟨s', hsub, he⟩ := dedupGo_extends m rest (acc ++ [r])
          rw [he] at h
          have hs : s = r :: s' := by
            rw [List.append_assoc, List.singleton_append] at h
            exact (List.append_cancel_left h).symm
          subst hs
          have ihr := ih (acc ++ [r]) s' he
          simp only [dedupGo]
          rw [if_neg hz]
          simp only [hov, if_false, Bool.false_eq_true]
          rw [if_neg hm, ihr, List.append_assoc, List.singleton_append]

/-- C6: the ranker is idempotent — running `filter_and_rank_rooms` on its
own output (already confidence-filtered, size-filtered, sorted and
de-overlapped) returns that output unchanged, for every candidate list and
every parameter choice. -/
theorem ranker_idempotent (rooms : List RoomData) (maxRooms : ℕ) (minConf : ℚ) :
    filter_and_rank_rooms (filter_and_rank_rooms rooms maxRooms minConf) maxRooms minConf
      = filter_and_rank_rooms rooms maxRooms minConf := by
  by_cases hempty : rooms = []
  · subst hempty
    simp [filter_and_rank_rooms]
  · have hout_eq : filter_and_rank_rooms rooms maxRooms minConf =
        dedupGo maxRooms []
          (List.insertionSort areaGE
            ((rooms.filter (fun r => decide (minConf ≤ r.confidence))).filter
              (fun r => decide (¬ 250000 < boxArea r)))) := by
      simp only [filter_and_rank_rooms]
      rw [if_neg hempty]
    obtain ⟨s, hsub, he⟩ := dedupGo_extends maxRooms
      (List.insertionSort areaGE
        ((rooms.filter (fun r => decide (minConf ≤ r.confidence))).filter
          (fun r => decide (¬ 250000 < boxArea r)))) []
    have hs_out : filter_and_rank_rooms rooms maxRooms minConf = s := by
      rw [hout_eq, he]; simp
    rw [hs_out]
    have hmem : ∀ a ∈ s,
        a ∈ (rooms.filter (fun r => decide (minConf ≤ r.confidence))).filter
          (fun r => decide (¬ 250000 < boxArea r)) := by
      intro a ha
      have hmem0 : a ∈ dedupGo maxRooms []
          (List.insertionSort areaGE
            ((rooms.filter (fun r => decide (minConf ≤ r.confidence))).filter
              (fun r => decide (¬ 250000 < boxArea r)))) := by
        rw [he]; simpa using ha
      rcases dedupGo_mem maxRooms _ [] a hmem0 with h' | ⟨h1, _⟩
      · simp at h'
      · exact (List.perm_insertionSort areaGE _).subset h1
    by_cases hse : s = []
    · subst hse; simp [filter_and_rank_rooms]
    · simp only [filter_and_rank_rooms]
      rw [if_neg hse]
      have hconf : s.filter (fun r => decide (minConf ≤ r.confidence)) = s :=
        List.filter_eq_self.mpr (fun a ha =>
          (List.mem_filter.mp (List.mem_filter.mp (hmem a ha)).1).2)
      have hsize : s.filter (fun r => decide (¬ 250000 < boxArea r)) = s :=
        List.filter_eq_self.mpr (fun a ha => (List.mem_filter.mp (hmem a ha)).2)
      rw [hconf, hsize]
      have hsorted : List.Sorted areaGE s :=
        List.Pairwise.sublist hsub (List.sorted_insertionSort areaGE _)
      rw [List.Sorted.insertionSort_eq hsorted]
      have hrep := dedupGo_replay maxRooms _ [] s he
      simpa using hrep

/-! ## Lemmas: text-room associator -/

lemma findBestGo_index (md : ℕ) (room : RoomData) (rcx rcy : ℤ) :
    ∀ (pool : List TextRegion) (i : ℕ) (best : Option (ℕ × TextRegion × ℤ))
      (j : ℕ) (t : TextRegion) (d : ℤ),
      findBestGo md room rcx rcy i pool best = some (j, t, d) →
      best = some (j, t, d) ∨ (i ≤ j ∧ pool.get? (j - i) = some t) := by
  intro pool
  induction pool with
  | nil => intro i best j t d h; simp only [findBestGo] at h; exact Or.inl h
  | cons x rest ih =>
    intro i best j t d h
    simp only [findBestGo] at h
    rcases ih (i + 1) _ j t d h with hnb | ⟨hle, hget⟩
    · split_ifs at hnb with hc
      · obtain ⟨rfl, rfl, rfl⟩ := Prod.mk.injEq .. ▸ (by
          have := (Option.some.injEq _ _).mp hnb
          exact ⟨congrArg Prod.fst this,
            congrArg (fun p => p.2.1) this, congrArg (fun p => p.2.2) this⟩ :
            i = j ∧ x = t ∧ _ = d)
        exact Or.inr ⟨le_refl _, by simp⟩
      · exact Or.inl hnb
    · refine Or.inr ⟨by omega, ?_⟩
      have hj : j - i = (j - (i + 1)) + 1 := by omega
      rw [hj]
      exact hget

lemma popIdx_perm {α} :
    ∀ (l : List α) (i : ℕ) (t : α), l.get? i = some t →
      List.Perm (t :: popIdx l i) l := by
  intro l
  induction l with
  | nil => intro i t h; simp at h
  | cons x rest ih =>
    intro i t h
    match i with
    | 0 =>
      have hx : x = t := by simpa using h
      subst hx
      simp [popIdx]
    | n + 1 =>
      have h' : rest.get? n = some t := h
      exact (List.Perm.swap x t _).trans ((ih n t h').cons x)

lemma popIdx_sublist {α} : ∀ (l : List α) (i : ℕ), (popIdx l i).Sublist l := by
  intro l
  induction l with
  | nil => intro i; simp [popIdx]
  | cons x rest ih =>
    intro i
    match i with
    | 0 => exact List.sublist_cons_self x rest
    | n + 1 => exact (ih n).cons₂ x

lemma assocGoP_length (md : ℕ) :
    ∀ (rooms : List RoomData) (pool : List TextRegion),
      (assocGoP md rooms pool).length = rooms.length := by
  intro rooms
  induction rooms with
  | nil => intro pool; simp [assocGoP]
  | cons room rest ih =>
    intro pool
    simp only [assocGoP]
    cases hfb : findBestGo md room (Int.fdiv (room.x_min + room.x_max) 2)
        (Int.fdiv (room.y_min + room.y_max) 2) 0 pool none with
    | none => simp [ih]
    | some v =>
      match v with
      | (i, t, d) => simp [ih]

lemma assocGo_eq_zipAttach (md : ℕ) :
    ∀ (rooms : List RoomData) (pool : List TextRegion),
      assocGo md rooms pool = zipAttach rooms (assocGoP md rooms pool) := by
  intro rooms
  induction rooms with
  | nil => intro pool; simp [assocGo, assocGoP, zipAttach]
  | cons room rest ih =>
    intro pool
    simp only [assocGo, assocGoP]
    cases hfb : findBestGo md room (Int.fdiv (room.x_min + room.x_max) 2)
        (Int.fdiv (room.y_min + room.y_max) 2) 0 pool none with
    | none => simp [zipAttach, ih]
    | some v =>
      match v with
      | (i, t, d) => simp [zipAttach, ih]

lemma assocGoP_subperm (md : ℕ) :
    ∀ (rooms : List RoomData) (pool : List TextRegion),
      List.Subperm (assocGoP md rooms pool).reduceOption pool := by
  intro rooms
  induction rooms with
  | nil => intro pool; simp [assocGoP, List.reduceOption]
  | cons room rest ih =>
    intro pool
    simp only [assocGoP]
    cases hfb : findBestGo md room (Int.fdiv (room.x_min + room.x_max) 2)
        (Int.fdiv (room.y_min + room.y_max) 2) 0 pool none with
    | none =>
      simp only [List.reduceOption_cons_of_none]
      exact ih pool
    | some v =>
      match v with
      | (i, t, d) =>
        simp only [List.reduceOption_cons_of_some]
        have hget : pool.get? i = some t := by
          rcases findBestGo_index md room _ _ pool 0 none i t d hfb with h' | ⟨_, h2⟩
          · simp at h'
          · simpa using h2
        have hperm : List.Perm (t :: popIdx pool i) pool := popIdx_perm pool i t hget
        exact ((List.subperm_cons t).mpr (ih (popIdx pool i))).trans hperm.subperm

lemma coreEq_refl (r : RoomData) : coreEq r r :=
  ⟨rfl, rfl, rfl, rfl, rfl, rfl, rfl, rfl⟩

lemma coreEq_attachSome (r : RoomData) (t : TextRegion) : coreEq (attachSome r t) r :=
  ⟨rfl, rfl, rfl, rfl, rfl, rfl, rfl, rfl⟩

lemma coreEq_attachNone (r : RoomData) : coreEq (attachNone r) r :=
  ⟨rfl, rfl, rfl, rfl, rfl, rfl, rfl, rfl⟩

lemma assocGo_core (md : ℕ) :
    ∀ (rooms : List RoomData) (pool : List TextRegion),
      List.Forall₂ coreEq (assocGo md rooms pool) rooms := by
  intro rooms
  induction rooms with
  | nil => intro pool; simp [assocGo]
  | cons room rest ih =>
    intro pool
    simp only [assocGo]
    cases hfb : findBestGo md room (Int.fdiv (room.x_min + room.x_max) 2)
        (Int.fdiv (room.y_min + room.y_max) 2) 0 pool none with
    | none => exact List.Forall₂.cons (coreEq_attachNone room) (ih pool)
    | some v =>
      match v with
      | (i, t, d) => exact List.Forall₂.cons (coreEq_attachSome room t) (ih (popIdx pool i))

/-- C10: the associator preserves its room list — one output room per input
room, in order (`List.Forall₂` forces equal lengths and pointwise relation),
with `bounding_box`, `confidence`, `area`, `is_hallway` and `aspect_ratio`
unchanged; only the OCR fields `detected_name` / `text_confidence` may
differ. -/
theorem assoc_preserves_rooms (rooms : List RoomData) (regions : List TextRegion)
    (md : ℕ) :
    List.Forall₂ coreEq (associate_text_with_rooms rooms regions md) rooms := by
  simp only [associate_text_with_rooms]
  split_ifs with hempty
  · exact List.forall₂_same.mpr (fun a _ => coreEq_refl a)
  · exact assocGo_core md rooms _

lemma attachNone_eq_self {r : RoomData} (h1 : r.detected_name = none)
    (h2 : r.text_confidence = 0) : attachNone r = r := by
  cases r
  simp only [attachNone]
  simp_all

lemma zipAttach_replicate_none :
    ∀ (rooms : List RoomData),
      (∀ r ∈ rooms, r.detected_name = none ∧ r.text_confidence = 0) →
      zipAttach rooms (List.replicate rooms.length none) = rooms := by
  intro rooms
  induction rooms with
  | nil => intro _; simp [zipAttach]
  | cons room rest ih =>
    intro h
    have hr := h room (List.mem_cons_self _ _)
    simp only [List.length_cons, List.replicate_succ, zipAttach, List.zipWith_cons_cons]
    have htail := ih (fun r hr' => h r (List.mem_cons_of_mem _ hr'))
    simp only [zipAttach] at htail
    rw [htail]
    rw [attachNone_eq_self hr.1 hr.2]

lemma reduceOption_replicate_none {α} :
    ∀ n : ℕ, (List.replicate n (none : Option α)).reduceOption = [] := by
  intro n
  induction n with
  | zero => simp
  | succ n ih => simp [List.replicate_succ, List.reduceOption_cons_of_none, ih]

lemma assocGo_detected (md : ℕ) :
    ∀ (rooms : List RoomData) (pool : List TextRegion),
      ∀ r ∈ assocGo md rooms pool,
        r.detected_name = none ∨ ∃ t ∈ pool, r.detected_name = some t.text := by
  intro rooms
  induction rooms with
  | nil => intro pool r hr; simp [assocGo] at hr
  | cons room rest ih =>
    intro pool r hr
    simp only [assocGo] at hr
    cases hfb : findBestGo md room (Int.fdiv (room.x_min + room.x_max) 2)
        (Int.fdiv (room.y_min + room.y_max) 2) 0 pool none with
    | none =>
      rw [hfb] at hr
      rcases List.mem_cons.mp hr with rfl | hr'
      · exact Or.inl rfl
      · exact ih pool r hr'
    | some v =>
      match v, hfb with
      | (i, t, d), hfb =>
        rw [hfb] at hr
        rcases List.mem_cons.mp hr with rfl | hr'
        · refine Or.inr ⟨t, ?_, rfl⟩
          rcases findBestGo_index md room _ _ pool 0 none i t d hfb with h' | ⟨_, h2⟩
          · simp at h'
          · exact List.get?_mem (by simpa using h2)
        · rcases ih (popIdx pool i) r hr' with h' | ⟨t', ht', he⟩
          · exact Or.inl h'
          · exact Or.inr ⟨t', (popIdx_sublist pool i).subset ht', he⟩

/-- C8: in every run of the associator (on rooms fresh from the ranker,
which carry no OCR fields yet), there is a per-room pick list such that the
output is exactly the input rooms with the picks attached, the multiset of
picked text regions is a sub-permutation of the input regions (each
TextRegion is consumed at most once — it is popped from the pool before the
next room is processed), and every room's `detected_name` is absent or the
text of a region from the input set. -/
theorem assoc_text_used_at_most_once (rooms : List RoomData)
    (regions : List TextRegion) (md : ℕ)
    (hinit : ∀ r ∈ rooms, r.detected_name = none ∧ r.text_confidence = 0) :
    ∃ picks : List (Option TextRegion),
      picks.length = rooms.length ∧
      associate_text_with_rooms rooms regions md = zipAttach rooms picks ∧
      List.Subperm picks.reduceOption regions ∧
      ∀ r ∈ associate_text_with_rooms rooms regions md,
        r.detected_name = none ∨ ∃ t ∈ regions, r.detected_name = some t.text := by
  simp only [associate_text_with_rooms]
  split_ifs with hempty
  · refine ⟨List.replicate rooms.length none, List.length_replicate _ _, ?_, ?_, ?_⟩
    · exact (zipAttach_replicate_none rooms hinit).symm
    · rw [reduceOption_replicate_none]; exact List.nil_subperm
    · intro r hr; exact Or.inl (hinit r hr).1
  · refine ⟨assocGoP md rooms (List.insertionSort confGE regions),
      assocGoP_length md rooms _, assocGo_eq_zipAttach md rooms _, ?_, ?_⟩
    · exact (assocGoP_subperm md rooms _).trans
        (List.perm_insertionSort confGE regions).subperm
    · intro r hr
      rcases assocGo_detected md rooms _ r hr with h' | ⟨t, ht, he⟩
      · exact Or.inl h'
      · exact Or.inr ⟨t, (List.perm_insertionSort confGE regions).subset ht, he⟩

/-- Witness for C8 at a concrete input: one fresh room and one text region
fully inside it. -/
theorem assoc_text_used_at_most_once_witness :
    (∀ r ∈ [(⟨0, 0, 100, 100, 9/10, 500, false, 1, none, 0⟩ : RoomData)],
      r.detected_name = none ∧ r.text_confidence = 0) ∧
    ∃ picks : List (Option TextRegion),
      picks.length = [(⟨0, 0, 100, 100, 9/10, 500, false, 1, none, 0⟩ : RoomData)].length ∧
      associate_text_with_rooms [⟨0, 0, 100, 100, 9/10, 500, false, 1, none, 0⟩]
          [⟨"Kitchen", 10, 10, 60, 30, 85, 35, 20⟩] 150 =
        zipAttach [⟨0, 0, 100, 100, 9/10, 500, false, 1, none, 0⟩] picks ∧
      List.Subperm picks.reduceOption [⟨"Kitchen", 10, 10, 60, 30, 85, 35, 20⟩] ∧
      ∀ r ∈ associate_text_with_rooms [⟨0, 0, 100, 100, 9/10, 500, false, 1, none, 0⟩]
          [⟨"Kitchen", 10, 10, 60, 30, 85, 35, 20⟩] 150,
        r.detected_name = none ∨
          ∃ t ∈ [(⟨"Kitchen", 10, 10, 60, 30, 85, 35, 20⟩ : TextRegion)],
            r.detected_name = some t.text :=
  ⟨by decide,
    assoc_text_used_at_most_once [⟨0, 0, 100, 100, 9/10, 500, false, 1, none, 0⟩]
      [⟨"Kitchen", 10, 10, 60, 30, 85, 35, 20⟩] 150 (by decide)⟩

/-! ## Lemmas: result formatter and full pipeline -/

lemma countClass_cons (b : Bool) (x : RoomData) (l : List RoomData) :
    countClass b (x :: l) = (if x.is_hallway = b then 1 else 0) + countClass b l := by
  simp only [countClass, List.filter]
  by_cases h : x.is_hallway = b
  · simp [h]; omega
  · simp [h]

lemma formatGo_get :
    ∀ (rooms : List RoomData) (rc hc i : ℕ) (r : RoomData),
      rooms.get? i = some r →
      (formatGo rc hc rooms).get? i =
        some (fmtOne r ((if r.is_hallway then hc else rc) +
          countClass r.is_hallway (rooms.take (i + 1)))) := by
  intro rooms
  induction rooms with
  | nil => intro rc hc i r h; simp at h
  | cons room rest ih =>
    intro rc hc i r h
    match i with
    | 0 =>
      have hx : room = r := by simpa using h
      subst hx
      simp only [formatGo]
      by_cases hh : room.is_hallway = true
      · rw [if_pos hh]
        have hcc : countClass room.is_hallway ((room :: rest).take 1) = 1 := by
          simp [countClass]
        rw [hcc]
        simp [hh]
      · rw [if_neg hh]
        have hcc : countClass room.is_hallway ((room :: rest).take 1) = 1 := by
          simp [countClass]
        rw [hcc]
        simp [hh]
    | n + 1 =>
      have h' : rest.get? n = some r := h
      have htake : (room :: rest).take (n + 1 + 1) = room :: rest.take (n + 1) := rfl
      simp only [formatGo]
      by_cases hh : room.is_hallway = true
      · rw [if_pos hh]
        have hstep : (fmtOne room (hc + 1) :: formatGo rc (hc + 1) rest).get? (n + 1) =
            (formatGo rc (hc + 1) rest).get? n := rfl
        rw [hstep, ih rc (hc + 1) n r h']
        congr 2
        rw [htake, countClass_cons, hh]
        cases hrb : r.is_hallway <;> simp [hrb] <;> omega
      · have hb : room.is_hallway = false := by
          cases hrb : room.is_hallway
          · rfl
          · exact absurd hrb hh
        rw [hb]
        simp only [Bool.false_eq_true, if_false]
        have hstep : (fmtOne room (rc + 1) :: formatGo (rc + 1) hc rest).get? (n + 1) =
            (formatGo (rc + 1) hc rest).get? n := rfl
        rw [hstep, ih (rc + 1) hc n r h']
        congr 2
        rw [htake, countClass_cons, hb]
        cases hrb : r.is_hallway <;> simp [hrb] <;> omega

/-- C9: for every room matched to a text region (non-empty detected text),
the formatter output carries the text and its OCR confidence as metadata;
when the OCR confidence exceeds 60 the `name_hint` is the detected text and
the id embeds the lowercased, underscore-joined name with a 2-padded
per-class counter; when it is at most 60 both id and `name_hint` fall back
to the generic `"Room N"` / `"Hallway N"` form, `N` being the 1-based
counter scoped separately per class. -/
theorem format_detected_name_threshold (rooms : List RoomData) (i : ℕ)
    (r : RoomData) (t : String)
    (hget : rooms.get? i = some r) (hdn : r.detected_name = some t) (hne : t ≠ "") :
    ∃ res, (formatGo 0 0 rooms).get? i = some res ∧
      res.detected_name = some t ∧
      res.text_confidence = r.text_confidence ∧
      ((60 : ℚ) < r.text_confidence →
        res.name_hint = t ∧
        res.rid = (if r.is_hallway then "hallway_" else "room_") ++
          pyLowerUnderscore t ++ "_" ++
          zfill 2 (toString (countClass r.is_hallway (rooms.take (i + 1)))) ∧
        ∃ s1 s2, res.rid = s1 ++ pyLowerUnderscore t ++ s2) ∧
      (r.text_confidence ≤ 60 →
        res.name_hint = (if r.is_hallway then "Hallway " else "Room ") ++
          toString (countClass r.is_hallway (rooms.take (i + 1))) ∧
        res.rid = (if r.is_hallway then "hallway_" else "room_") ++
          zfill 3 (toString (countClass r.is_hallway (rooms.take (i + 1))))) := by
  have hfmt := formatGo_get rooms 0 0 i r hget
  rw [ite_self, Nat.zero_add] at hfmt
  refine ⟨fmtOne r (countClass r.is_hallway (rooms.take (i + 1))), hfmt, ?_⟩
  have hdtr : dnTruthy r := by simp [dnTruthy, hdn, hne]
  by_cases h60 : (60 : ℚ) < r.text_confidence
  · have hnamed : t ≠ "" ∧ (60 : ℚ) < r.text_confidence := ⟨hne, h60⟩
    simp only [fmtOne, hdn, if_pos hnamed]
    refine ⟨?_, ?_, ?_, ?_⟩
    · simp [mkRes, hdtr, hdn]
    · simp [mkRes, hdtr]
    · intro _
      refine ⟨rfl, rfl, ?_⟩
      refine ⟨(if r.is_hallway then "hallway_" else "room_"),
        "_" ++ zfill 2 (toString (countClass r.is_hallway (rooms.take (i + 1)))), ?_⟩
      simp only [mkRes]
      rw [String.append_assoc]
    · intro hle
      exact absurd h60 (not_lt.mpr hle)
  · have hnamed : ¬(t ≠ "" ∧ (60 : ℚ) < r.text_confidence) := by
      intro hx; exact h60 hx.2
    simp only [fmtOne, hdn, if_neg hnamed]
    refine ⟨?_, ?_, ?_, ?_⟩
    · simp [mkRes, hdtr, hdn]
    · simp [mkRes, hdtr]
    · intro hgt
      exact absurd hgt h60
    · intro _
      exact ⟨rfl, rfl⟩

/-- Witness for C9 at a concrete input: a room carrying OCR text
`"Main Hall"` with confidence 85 formats to `name_hint = "Main Hall"` and
id `"room_main_hall_01"`. -/
theorem format_detected_name_threshold_witness :
    ∃ res, (formatGo 0 0
        [(⟨0, 0, 100, 100, 9/10, 500, false, 1, some "Main Hall", 85⟩ : RoomData)]).get? 0 =
        some res ∧
      res.detected_name = some "Main Hall" ∧
      res.text_confidence =
        (⟨0, 0, 100, 100, 9/10, 500, false, 1, some "Main Hall", 85⟩ : RoomData).text_confidence ∧
      ((60 : ℚ) <
          (⟨0, 0, 100, 100, 9/10, 500, false, 1, some "Main Hall", 85⟩ : RoomData).text_confidence →
        res.name_hint = "Main Hall" ∧
        res.rid = (if (⟨0, 0, 100, 100, 9/10, 500, false, 1, some "Main Hall", 85⟩ : RoomData).is_hallway
            then "hallway_" else "room_") ++
          pyLowerUnderscore "Main Hall" ++ "_" ++
          zfill 2 (toString (countClass
            (⟨0, 0, 100, 100, 9/10, 500, false, 1, some "Main Hall", 85⟩ : RoomData).is_hallway
            ([(⟨0, 0, 100, 100, 9/10, 500, false, 1, some "Main Hall", 85⟩ : RoomData)].take 1))) ∧
        ∃ s1 s2, res.rid = s1 ++ pyLowerUnderscore "Main Hall" ++ s2) ∧
      ((⟨0, 0, 100, 100, 9/10, 500, false, 1, some "Main Hall", 85⟩ : RoomData).text_confidence ≤ 60 →
        res.name_hint = (if (⟨0, 0, 100, 100, 9/10, 500, false, 1, some "Main Hall", 85⟩ : RoomData).is_hallway
            then "Hallway " else "Room ") ++
          toString (countClass
            (⟨0, 0, 100, 100, 9/10, 500, false, 1, some "Main Hall", 85⟩ : RoomData).is_hallway
            ([(⟨0, 0, 100, 100, 9/10, 500, false, 1, some "Main Hall", 85⟩ : RoomData)].take 1)) ∧
        res.rid = (if (⟨0, 0, 100, 100, 9/10, 500, false, 1, some "Main Hall", 85⟩ : RoomData).is_hallway
            then "hallway_" else "room_") ++
          zfill 3 (toString (countClass
            (⟨0, 0, 100, 100, 9/10, 500, false, 1, some "Main Hall", 85⟩ : RoomData).is_hallway
            ([(⟨0, 0, 100, 100, 9/10, 500, false, 1, some "Main Hall", 85⟩ : RoomData)].take 1)))) :=
  format_detected_name_threshold
    [⟨0, 0, 100, 100, 9/10, 500, false, 1, some "Main Hall", 85⟩] 0
    ⟨0, 0, 100, 100, 9/10, 500, false, 1, some "Main Hall", 85⟩ "Main Hall"
    rfl rfl (by decide)

lemma fmtOne_box (room : RoomData) (n : ℕ) : resBoxEq (fmtOne room n) room := by
  simp only [resBoxEq, fmtOne]
  cases room.detected_name with
  | none => exact ⟨rfl, rfl, rfl, rfl⟩
  | some t =>
    by_cases h : t ≠ "" ∧ (60 : ℚ) < room.text_confidence
    · simp only [if_pos h]
      exact ⟨rfl, rfl, rfl, rfl⟩
    · simp only [if_neg h]
      exact ⟨rfl, rfl, rfl, rfl⟩

lemma formatGo_boxes :
    ∀ (rooms : List RoomData) (rc hc : ℕ),
      List.Forall₂ resBoxEq (formatGo rc hc rooms) rooms := by
  intro rooms
  induction rooms with
  | nil => intro rc hc; simp [formatGo]
  | cons room rest ih =>
    intro rc hc
    simp only [formatGo]
    by_cases hh : room.is_hallway = true
    · rw [if_pos hh]
      exact List.Forall₂.cons (fmtOne_box room (hc + 1)) (ih rc (hc + 1))
    · rw [if_neg hh]
      exact List.Forall₂.cons (fmtOne_box room (rc + 1)) (ih (rc + 1) hc)

lemma forall₂_mem_left {α β} {R : α → β → Prop} :
    ∀ {l1 : List α} {l2 : List β}, List.Forall₂ R l1 l2 →
      ∀ a ∈ l1, ∃ b ∈ l2, R a b := by
  intro l1 l2 h
  induction h with
  | nil => intro a ha; simp at ha
  | @cons x y l1' l2' hR hrest ih =>
    intro a ha
    rcases List.mem_cons.mp ha with rfl | ha'
    · exact ⟨y, List.mem_cons_self _ _, hR⟩
    · obtain ⟨b, hb, hRb⟩ := ih a ha'
      exact ⟨b, List.mem_cons_of_mem _ hb, hRb⟩

lemma associate_core (rooms : List RoomData) (regions : List TextRegion) (md : ℕ) :
    List.Forall₂ coreEq (associate_text_with_rooms rooms regions md) rooms := by
  simp only [associate_text_with_rooms]
  split_ifs with hempty
  · exact List.forall₂_same.mpr (fun a _ => coreEq_refl a)
  · exact assocGo_core md rooms _

/-- C4: for every input whose contour bounding rectangles lie inside the
image, every Room in the final response of the `detect_rooms` pipeline has a
bounding box with `0 <= x_min < x_max <= 1000` and
`0 <= y_min < y_max <= 1000`. -/
theorem pipeline_box_bounds (H W : ℕ) (contours : List Contour)
    (hier : Option (List HEntry)) (regions : List TextRegion) (minA : ℚ)
    (maxRooms : ℕ)
    (hin : ∀ c ∈ contours, c.x + c.w ≤ W ∧ c.y + c.h ≤ H) :
    ∀ res ∈ detect_rooms H W contours hier regions minA maxRooms,
      0 ≤ res.x_min ∧ res.x_min < res.x_max ∧ res.x_max ≤ 1000 ∧
      0 ≤ res.y_min ∧ res.y_min < res.y_max ∧ res.y_max ≤ 1000 := by
  have hseg : ∀ rd ∈ find_rooms_from_contours H W contours hier minA none,
      0 ≤ rd.x_min ∧ rd.x_min ≤ rd.x_max ∧ rd.x_max ≤ 1000 ∧
      0 ≤ rd.y_min ∧ rd.y_min ≤ rd.y_max ∧ rd.y_max ≤ 1000 := by
    apply find_rooms_forall
    intro i c rd hc h
    obtain ⟨h1, h2, h3, h4, -⟩ := processContour_some h
    obtain ⟨hcw, hch⟩ := hin c hc
    rw [h1, h2, h3, h4]
    refine ⟨by exact_mod_cast Nat.zero_le _,
      by exact_mod_cast normCoord_mono (Nat.le_add_right c.x c.w),
      by exact_mod_cast normCoord_le_1000 hcw,
      by exact_mod_cast Nat.zero_le _,
      by exact_mod_cast normCoord_mono (Nat.le_add_right c.y c.h),
      by exact_mod_cast normCoord_le_1000 hch⟩
  have hrank : ∀ rd ∈ filter_and_rank_rooms
      (find_rooms_from_contours H W contours hier minA none) maxRooms (4/5),
      0 ≤ rd.x_min ∧ rd.x_min < rd.x_max ∧ rd.x_max ≤ 1000 ∧
      0 ≤ rd.y_min ∧ rd.y_min < rd.y_max ∧ rd.y_max ≤ 1000 := by
    intro rd hrd
    have hm := ranker_mem rd hrd
    have hs := hseg rd hm.1
    have hz := hm.2.2.2
    have hfac : rd.x_max - rd.x_min ≠ 0 ∧ rd.y_max - rd.y_min ≠ 0 :=
      mul_ne_zero_iff.mp hz
    obtain ⟨hs1, hs2, hs3, hs4, hs5, hs6⟩ := hs
    refine ⟨hs1, ?_, hs3, hs4, ?_, hs6⟩
    · have := hfac.1; omega
    · have := hfac.2; omega
  intro res hres
  simp only [detect_rooms] at hres
  obtain ⟨rdA, hrdA, hRA⟩ := forall₂_mem_left (formatGo_boxes _ 0 0) res hres
  obtain ⟨rdB, hrdB, hRB⟩ := forall₂_mem_left (associate_core _ regions 150) rdA hrdA
  have hb := hrank rdB hrdB
  obtain ⟨e1, e2, e3, e4⟩ := hRA
  obtain ⟨f1, f2, f3, f4, -⟩ := hRB
  rw [e1, e2, e3, e4, f1, f2, f3, f4]
  exact hb

/-- Witness for C4 at a concrete input: a 100 x 100 image with one 40 x 40
contour of area 1500 yields one room, whose box obeys the bounds. -/
theorem pipeline_box_bounds_witness :
    (∀ c ∈ [(⟨1500, 10, 10, 40, 40⟩ : Contour)], c.x + c.w ≤ 100 ∧ c.y + c.h ≤ 100) ∧
    ∀ res ∈ detect_rooms 100 100 [⟨1500, 10, 10, 40, 40⟩]
        (some [⟨-1, -1, -1, -1⟩]) [] 300 20,
      0 ≤ res.x_min ∧ res.x_min < res.x_max ∧ res.x_max ≤ 1000 ∧
      0 ≤ res.y_min ∧ res.y_min < res.y_max ∧ res.y_max ≤ 1000 :=
  ⟨by decide,
    pipeline_box_bounds 100 100 [⟨1500, 10, 10, 40, 40⟩] (some [⟨-1, -1, -1, -1⟩])
      [] 300 20 (by decide)⟩

/-- Witness for C3 (amended) at a concrete input: the single candidate of a
100 x 100 image run has a monotone normalized box. -/
theorem candidate_box_monotone_witness :
    (⟨100, 100, 500, 500, 19/20, 1500, false, 1, none, 0⟩ : RoomData).x_min ≤
        (⟨100, 100, 500, 500, 19/20, 1500, false, 1, none, 0⟩ : RoomData).x_max ∧
      (⟨100, 100, 500, 500, 19/20, 1500, false, 1, none, 0⟩ : RoomData).y_min ≤
        (⟨100, 100, 500, 500, 19/20, 1500, false, 1, none, 0⟩ : RoomData).y_max :=
  candidate_box_monotone 100 100 [⟨1500, 10, 10, 40, 40⟩] (some [⟨-1, -1, -1, -1⟩])
    300 none ⟨100, 100, 500, 500, 19/20, 1500, false, 1, none, 0⟩ (by decide)
